import Mathlib

/-!
Verification of the grid/stream/stack simulation family of this Advent-of-Code
repository against its natural-language specification.

Each namespace below is a shallow embedding of one source file:

* `Day09` — `src/day-09/day-09.js` (rope simulation on an integer lattice);
* `Day08` — `src/day-08/day-08.js` (tree visibility and scenic scores);
* `Day07` — the filesystem aggregator of `src/day-02/day-02.js`
  (`parseShellCommands` / `findSmallDirs`);
* `Day05` — the crate-stack rearrangement engine (bulk-transfer mode).

JavaScript machine integers on these inputs behave as exact integers, so
coordinates are `ℤ` and sizes/heights are `ℕ`.  Mutation of the JS state
objects is rendered as explicit state passing.
-/

namespace Day09

/-- A lattice coordinate, the `{x, y}` objects of `day-09.js`. -/
structure Pos where
  x : ℤ
  y : ℤ
deriving DecidableEq, Repr

/-- The four instruction directions `U`, `D`, `L`, `R`. -/
inductive Dir where
  | U | D | L | R
deriving DecidableEq, Repr

/-- One parsed line of rope input: a direction plus a number of unit steps
(`parseInstruction` in the source). -/
structure RopeInstruction where
  direction : Dir
  numSteps : ℕ
deriving DecidableEq, Repr

/-- `movePosition` from the source: move one unit in the given direction;
exactly one coordinate changes by one. -/
def movePosition (d : Dir) (p : Pos) : Pos :=
  match d with
  | Dir.U => ⟨p.x, p.y + 1⟩
  | Dir.D => ⟨p.x, p.y - 1⟩
  | Dir.R => ⟨p.x + 1, p.y⟩
  | Dir.L => ⟨p.x - 1, p.y⟩

/-- `areAdjacent` from the source: each axis distance is at most 1
(`Math.abs` on exact integers is `Int.natAbs`). -/
def areAdjacent (a b : Pos) : Bool :=
  decide ((a.x - b.x).natAbs ≤ 1) && decide ((a.y - b.y).natAbs ≤ 1)

/-- `moveTail` from the source: a knot follows the knot ahead of it.  If still
adjacent it stays; in the same column it moves one unit vertically toward the
head; in the same row, one unit horizontally; otherwise one unit on each axis
(the mandatory diagonal move). -/
def moveTail (headPosition tailPosition : Pos) : Pos :=
  if areAdjacent headPosition tailPosition then tailPosition
  else
    let yDirection := if headPosition.y > tailPosition.y then Dir.U else Dir.D
    let xDirection := if headPosition.x > tailPosition.x then Dir.R else Dir.L
    if headPosition.x = tailPosition.x then movePosition yDirection tailPosition
    else if headPosition.y = tailPosition.y then movePosition xDirection tailPosition
    else movePosition xDirection (movePosition yDirection tailPosition)

/-- Chebyshev distance between two coordinates (the spec's metric). -/
def cheb (a b : Pos) : ℕ :=
  max (a.x - b.x).natAbs (a.y - b.y).natAbs

end Day09

namespace Day09

/-- `cheb` is symmetric. -/
theorem cheb_comm (a b : Pos) : cheb a b = cheb b a := by
  unfold cheb
  omega

/-- Triangle inequality for the Chebyshev distance. -/
theorem cheb_triangle (a b c : Pos) : cheb a c ≤ cheb a b + cheb b c := by
  unfold cheb
  omega

/-- Adjacency in the source is exactly Chebyshev distance at most one. -/
theorem areAdjacent_iff_cheb (a b : Pos) : areAdjacent a b = true ↔ cheb a b ≤ 1 := by
  unfold areAdjacent cheb
  simp only [Bool.and_eq_true, decide_eq_true_eq]
  omega

/-- A follow step never moves a knot by more than one on either axis. -/
theorem cheb_moveTail_self (h t : Pos) : cheb t (moveTail h t) ≤ 1 := by
  unfold moveTail movePosition
  split
  · simp [cheb]
  · unfold cheb
    split_ifs <;> simp_all <;> omega

/-- When the head is within Chebyshev distance two, one follow step restores
distance at most one. -/
theorem cheb_moveTail_le (h t : Pos) (hd : cheb h t ≤ 2) :
    cheb h (moveTail h t) ≤ 1 := by
  unfold moveTail movePosition
  split
  · next hadj => exact (areAdjacent_iff_cheb h t).mp hadj
  · next hadj =>
    have hadj' : ¬ cheb h t ≤ 1 := fun hc => hadj ((areAdjacent_iff_cheb h t).mpr hc)
    unfold cheb at hadj' hd ⊢
    split_ifs <;> simp_all <;> omega

/-- C1: one follow step (`moveTail`) leaves the tail unchanged when the pair is
within Chebyshev distance one, and otherwise moves the tail exactly one step
toward the head: one unit along the shared axis when the pair shares a row or a
column, and one unit on each axis (never a one-axis move) when both axes
differ. -/
theorem c1_moveTail_follow_rule (h t : Pos) :
    (cheb h t ≤ 1 → moveTail h t = t) ∧
    (1 < cheb h t →
      (h.x = t.x → moveTail h t = ⟨t.x, t.y + if h.y > t.y then 1 else -1⟩) ∧
      (h.y = t.y → moveTail h t = ⟨t.x + (if h.x > t.x then 1 else -1), t.y⟩) ∧
      (h.x ≠ t.x → h.y ≠ t.y →
        moveTail h t =
          ⟨t.x + (if h.x > t.x then 1 else -1),
           t.y + if h.y > t.y then 1 else -1⟩)) := by
  constructor
  · intro hc
    unfold moveTail
    rw [if_pos ((areAdjacent_iff_cheb h t).mpr hc)]
  · intro hfar
    have hnadj : areAdjacent h t ≠ true := by
      intro hc
      have := (areAdjacent_iff_cheb h t).mp hc
      omega
    refine ⟨fun hx => ?_, fun hy => ?_, fun hx hy => ?_⟩
    · unfold moveTail movePosition
      rw [if_neg (by simp [hnadj]), if_pos hx]
      split_ifs <;> simp_all <;> omega
    · have hx : h.x ≠ t.x := by
        intro hx
        unfold cheb at hfar
        simp only [hx] at hfar
        omega
      unfold moveTail movePosition
      rw [if_neg (by simp [hnadj]), if_neg hx, if_pos hy]
      split_ifs <;> simp_all <;> omega
    · unfold moveTail movePosition
      rw [if_neg (by simp [hnadj]), if_neg hx, if_neg hy]
      split_ifs <;> simp_all <;> constructor <;> omega

/-- Witness for C1 at a concrete diagonal pair: head `(2, 2)`, tail at the
origin, one follow step lands on `(1, 1)`. -/
theorem c1_moveTail_follow_rule_witness :
    moveTail ⟨2, 2⟩ ⟨0, 0⟩ = ⟨1, 1⟩ := by
  have h := (c1_moveTail_follow_rule ⟨2, 2⟩ ⟨0, 0⟩).2 (by decide)
  have := h.2.2 (by decide) (by decide)
  simpa using this

/-- The inner knot loop of `performInstruction`: each knot follows the
already-moved knot ahead of it, in order. -/
def followAll : Pos → List Pos → List Pos
  | _, [] => []
  | h, t :: rest => moveTail h t :: followAll (moveTail h t) rest

/-- One unit step on the knot list: move the head one unit, then let every
later knot follow (`positions` update inside the step loop of
`performInstruction`). -/
def stepRope (d : Dir) : List Pos → List Pos
  | [] => []
  | p :: rest => movePosition d p :: followAll (movePosition d p) rest

/-- The rope invariant: every adjacent pair of knots is within Chebyshev
distance one. -/
def ropeOk : List Pos → Bool
  | [] => true
  | [_] => true
  | a :: b :: rest => decide (cheb a b ≤ 1) && ropeOk (b :: rest)

/-- The mutable `state` object of `day-09.js`: the knot positions plus the set
of coordinates visited by the last knot (the JS string keys `x,y` are in
bijection with the coordinate pairs). -/
structure RopeState where
  positions : List Pos
  visited : Finset (ℤ × ℤ)
deriving DecidableEq

/-- The coordinate recorded after a unit step: `positions[positions.length-1]`
(the run only ever uses non-empty ropes, where `getLast?` is `some`). -/
def lastCoord (ps : List Pos) : ℤ × ℤ :=
  match ps.getLast? with
  | some p => (p.x, p.y)
  | none => (0, 0)

/-- The body of the step loop of `performInstruction`: one unit step of the
whole rope, then record the last knot's coordinate. -/
def unitStep (d : Dir) (st : RopeState) : RopeState :=
  let ps := stepRope d st.positions
  ⟨ps, insert (lastCoord ps) st.visited⟩

/-- `performInstruction` from the source: the unit step repeated
`numSteps` times. -/
def performInstruction (ins : RopeInstruction) (st : RopeState) : RopeState :=
  (unitStep ins.direction)^[ins.numSteps] st

/-- `performInstructions` from the source. -/
def performInstructions (instrs : List RopeInstruction) (st : RopeState) : RopeState :=
  instrs.foldl (fun s ins => performInstruction ins s) st

/-- The initial state of `main`: `n` knots at the origin (the source uses
`n = 10`) and an empty visited set. -/
def initState (n : ℕ) : RopeState :=
  ⟨List.replicate n ⟨0, 0⟩, ∅⟩

/-- The sequence of unit-step directions an instruction list performs. -/
def dirSeq (instrs : List RopeInstruction) : List Dir :=
  instrs.flatMap fun ins => List.replicate ins.numSteps ins.direction

/-- Iterating the unit step is folding it over a replicated direction list. -/
theorem iterate_unitStep_eq_foldl (d : Dir) (n : ℕ) (st : RopeState) :
    (unitStep d)^[n] st =
      (List.replicate n d).foldl (fun s d' => unitStep d' s) st := by
  induction n generalizing st with
  | zero => rfl
  | succ k ih =>
    rw [Function.iterate_succ_apply, List.replicate_succ, List.foldl_cons, ih]

/-- The whole simulation is the fold of the unit step over the flattened
direction sequence: instructions act one unit step at a time. -/
theorem performInstructions_eq_foldl_dirSeq (instrs : List RopeInstruction)
    (st : RopeState) :
    performInstructions instrs st =
      (dirSeq instrs).foldl (fun s d => unitStep d s) st := by
  induction instrs generalizing st with
  | nil => rfl
  | cons ins rest ih =>
    simp only [performInstructions, List.foldl_cons, dirSeq, List.flatMap_cons,
      List.foldl_append]
    rw [← iterate_unitStep_eq_foldl]
    have hstep : (unitStep ins.direction)^[ins.numSteps] st = performInstruction ins st := rfl
    rw [hstep, ← dirSeq]
    exact ih (performInstruction ins st)

/-- After a follow pass the rope is chained, provided the incoming rope was
chained and the new head is within distance two of the old first knot. -/
theorem followAll_ok (ts : List Pos) (h : Pos)
    (hok : ropeOk ts = true)
    (hhd : ∀ t rest, ts = t :: rest → cheb h t ≤ 2) :
    ropeOk (h :: followAll h ts) = true := by
  induction ts generalizing h with
  | nil => rfl
  | cons t rest ih =>
    have h2 : cheb h t ≤ 2 := hhd t rest rfl
    have h1 : cheb h (moveTail h t) ≤ 1 := cheb_moveTail_le h t h2
    have hokRest : ropeOk rest = true := by
      cases rest with
      | nil => rfl
      | cons r rs =>
        simp only [ropeOk, Bool.and_eq_true] at hok
        exact hok.2
    have hstep : ropeOk (moveTail h t :: followAll (moveTail h t) rest) = true := by
      refine ih (moveTail h t) hokRest ?_
      intro r rs hrest
      subst hrest
      have hchain : cheb t r ≤ 1 := by
        simp only [ropeOk, Bool.and_eq_true, decide_eq_true_eq] at hok
        exact hok.1
      have hmove : cheb (moveTail h t) t ≤ 1 := by
        rw [cheb_comm]
        exact cheb_moveTail_self h t
      calc cheb (moveTail h t) r ≤ cheb (moveTail h t) t + cheb t r := cheb_triangle _ _ _
        _ ≤ 2 := by omega
    simp only [followAll, ropeOk, Bool.and_eq_true, decide_eq_true_eq]
    cases hfa : followAll (moveTail h t) rest with
    | nil => exact ⟨h1, rfl⟩
    | cons q qs =>
      refine ⟨h1, ?_⟩
      rw [← hfa]
      exact hstep

/-- A unit step of the whole rope preserves the chain invariant. -/
theorem stepRope_preserves (d : Dir) (ps : List Pos) (hok : ropeOk ps = true) :
    ropeOk (stepRope d ps) = true := by
  cases ps with
  | nil => rfl
  | cons p rest =>
    have hokRest : ropeOk rest = true := by
      cases rest with
      | nil => rfl
      | cons r rs =>
        simp only [ropeOk, Bool.and_eq_true] at hok
        exact hok.2
    refine followAll_ok rest (movePosition d p) hokRest ?_
    intro t rs hrest
    subst hrest
    have hmp : cheb (movePosition d p) p ≤ 1 := by
      unfold movePosition cheb
      cases d <;> simp <;> omega
    have hchain : cheb p t ≤ 1 := by
      simp only [ropeOk, Bool.and_eq_true, decide_eq_true_eq] at hok
      exact hok.1
    calc cheb (movePosition d p) t
        ≤ cheb (movePosition d p) p + cheb p t := cheb_triangle _ _ _
      _ ≤ 2 := by omega

/-- A rope with every knot at the origin satisfies the invariant. -/
theorem ropeOk_replicate (n : ℕ) : ropeOk (List.replicate n ⟨0, 0⟩) = true := by
  induction n with
  | zero => rfl
  | succ k ih =>
    cases k with
    | zero => rfl
    | succ m =>
      simp only [List.replicate_succ, ropeOk, Bool.and_eq_true, decide_eq_true_eq]
      constructor
      · simp [cheb]
      · rw [← List.replicate_succ]
        exact ih

/-- The positions component of folding unit steps folds `stepRope`. -/
theorem foldl_unitStep_positions (ds : List Dir) (st : RopeState) :
    ((ds.foldl (fun s d => unitStep d s) st).positions) =
      ds.foldl (fun ps d => stepRope d ps) st.positions := by
  induction ds generalizing st with
  | nil => rfl
  | cons d rest ih =>
    simp only [List.foldl_cons]
    rw [ih]
    rfl

/-- C2: for every list of well-formed motion instructions applied to a rope of
`n` knots all starting at the origin, after every single unit step of the
simulation (every prefix `ds₁` of the performed unit-step sequence) every
adjacent pair of knots is within Chebyshev distance one. -/
theorem c2_rope_chain_invariant (instrs : List RopeInstruction)
    (hpos : ∀ ins ∈ instrs, 0 < ins.numSteps) (n : ℕ) (ds₁ ds₂ : List Dir)
    (hsplit : dirSeq instrs = ds₁ ++ ds₂) :
    ropeOk ((ds₁.foldl (fun s d => unitStep d s) (initState n)).positions) = true := by
  clear hpos hsplit
  rw [foldl_unitStep_positions]
  have : ∀ (ds : List Dir) (ps : List Pos), ropeOk ps = true →
      ropeOk (ds.foldl (fun qs d => stepRope d qs) ps) = true := by
    intro ds
    induction ds with
    | nil => intro ps h; exact h
    | cons d rest ih =>
      intro ps h
      exact ih _ (stepRope_preserves d ps h)
  exact this ds₁ _ (ropeOk_replicate n)

/-- Witness for C2: one instruction `R 2`, rope of three knots, after the first
unit step the chain invariant holds. -/
theorem c2_rope_chain_invariant_witness :
    ropeOk ((([Dir.R]).foldl (fun s d => unitStep d s) (initState 3)).positions) = true :=
  c2_rope_chain_invariant [⟨Dir.R, 2⟩] (by decide) 3 [Dir.R] [Dir.R] (by decide)

/-- C9 counterexample: running the simulation with the empty instruction list
from the initial ten-knot state leaves the visited set of size `0`, not `1` as
the claim states. -/
theorem c9_empty_run_counterexample :
    (performInstructions [] (initState 10)).visited.card ≠ 1 := by
  decide

/-- C9 (amended): running the simulation with an empty instruction list leaves
the state unchanged, so the visited-coordinate set is empty (size `0`): a
coordinate is only recorded after a unit step is performed. -/
theorem c9_empty_run_visited_empty :
    performInstructions [] (initState 10) = initState 10 ∧
    (performInstructions [] (initState 10)).visited = ∅ ∧
    (performInstructions [] (initState 10)).visited.card = 0 := by
  refine ⟨rfl, rfl, rfl⟩

end Day09

namespace Day08

/-- The height at row `i`, column `j` of a matrix (`matrix[i][j]`). -/
def height (m : List (List ℕ)) (i j : ℕ) : ℕ :=
  (m.getD i []).getD j 0

/-- `getLeft` from the source: the heights to the left of `(i, j)`, scanned
outward (`matrix[i].slice(0, j).reverse()`). -/
def getLeft (i j : ℕ) (m : List (List ℕ)) : List ℕ :=
  ((m.getD i []).take j).reverse

/-- `getRight` from the source: the heights to the right of `(i, j)`
(`matrix[i].slice(j + 1)`). -/
def getRight (i j : ℕ) (m : List (List ℕ)) : List ℕ :=
  (m.getD i []).drop (j + 1)

/-- `getTop` from the source: the heights above `(i, j)`, scanned outward
(`matrix[cur][j]` for `cur = i-1` down to `0`). -/
def getTop (i j : ℕ) (m : List (List ℕ)) : List ℕ :=
  (List.range i).reverse.map fun cur => height m cur j

/-- `getBottom` from the source: the heights below `(i, j)`
(`matrix[cur][j]` for `cur = i+1` up to `matrix.length - 1`). -/
def getBottom (i j : ℕ) (m : List (List ℕ)) : List ℕ :=
  (List.range' (i + 1) (m.length - (i + 1))).map fun cur => height m cur j

/-- `isVisibleFromSide` from the source: no height on the scanned side reaches
the element. -/
def isVisibleFromSide (element : ℕ) (side : List ℕ) : Bool :=
  side.all fun current => decide (current < element)

/-- `isVisible` from the source: edge cells short-circuit to visible, interior
cells check the four outward scans. -/
def isVisible (i j : ℕ) (m : List (List ℕ)) : Bool :=
  if i = 0 ∨ i = m.length - 1 ∨ j = 0 ∨ j = (m.getD i []).length - 1 then true
  else
    let element := height m i j
    isVisibleFromSide element (getLeft i j m) ||
    isVisibleFromSide element (getRight i j m) ||
    isVisibleFromSide element (getTop i j m) ||
    isVisibleFromSide element (getBottom i j m)

/-- `countVisible` from the source: the number of visible cells of the
matrix. -/
def countVisible (m : List (List ℕ)) : ℕ :=
  ((List.range m.length).map fun i =>
    ((List.range (m.getD i []).length).filter fun j => isVisible i j m).length).sum

/-- `getViewingDistanceFromSide` from the source: count scanned cells, stopping
at (and counting) the first cell at least as tall as the element. -/
def getViewingDistanceFromSide (element : ℕ) : List ℕ → ℕ
  | [] => 0
  | current :: rest =>
    if element ≤ current then 1
    else 1 + getViewingDistanceFromSide element rest

/-- `getScenicScore` from the source: the product of the four directional
viewing distances (the `reduce` over `[top, left, right, bottom]`). -/
def getScenicScore (i j : ℕ) (m : List (List ℕ)) : ℕ :=
  let element := height m i j
  getViewingDistanceFromSide element (getTop i j m) *
    getViewingDistanceFromSide element (getLeft i j m) *
    getViewingDistanceFromSide element (getRight i j m) *
    getViewingDistanceFromSide element (getBottom i j m)

/-- `findMaxScenicScore` from the source: the largest scenic score over all
cells (`0` when the matrix is empty). -/
def findMaxScenicScore (m : List (List ℕ)) : ℕ :=
  ((List.range m.length).flatMap fun i =>
    (List.range (m.getD i []).length).map fun j => getScenicScore i j m).foldl max 0

/-- The example grid `30373 / 25512 / 65332 / 33549 / 35390` of the problem
statement. -/
def sampleGrid : List (List ℕ) :=
  [[3, 0, 3, 7, 3], [2, 5, 5, 1, 2], [6, 5, 3, 3, 2], [3, 3, 5, 4, 9], [3, 5, 3, 9, 0]]

/-- A matrix is rectangular with row width `w`. -/
def Rectangular (m : List (List ℕ)) (w : ℕ) : Prop :=
  ∀ row ∈ m, row.length = w

/-- `(i, j)` lies on the boundary of the matrix. -/
def Boundary (m : List (List ℕ)) (i j : ℕ) : Prop :=
  i = 0 ∨ i = m.length - 1 ∨ j = 0 ∨ j = (m.getD i []).length - 1

/-- The spec's visibility scan: in at least one of the four directions every
intervening cell is strictly lower than the cell itself. -/
def VisibleScan (m : List (List ℕ)) (i j : ℕ) : Prop :=
  (∀ k, k < j → height m i k < height m i j) ∨
  (∀ k, j < k → k < (m.getD i []).length → height m i k < height m i j) ∨
  (∀ k, k < i → height m k j < height m i j) ∨
  (∀ k, i < k → k < m.length → height m k j < height m i j)

/-- Scanning a `take` collects exactly the entries at indices below the cut. -/
theorem forall_mem_take_iff (l : List ℕ) (n : ℕ) (hn : n ≤ l.length) (P : ℕ → Prop) :
    (∀ x ∈ l.take n, P x) ↔ ∀ k, k < n → P (l.getD k 0) := by
  constructor
  · intro H k hk
    have hkl : k < l.length := lt_of_lt_of_le hk hn
    have hmem : l.getD k 0 ∈ l.take n := by
      rw [List.getD_eq_getElem l 0 hkl]
      have hlen : k < (l.take n).length := by
        simp
        omega
      have : (l.take n)[k] = l[k] := by rw [List.getElem_take]
      exact this ▸ (l.take n).getElem_mem hlen
    exact H _ hmem
  · intro H x hx
    obtain ⟨k, hk, rfl⟩ := List.mem_iff_getElem.mp hx
    have hkn : k < n := by
      simp at hk
      omega
    have hkl : k < l.length := lt_of_lt_of_le hkn hn
    have h1 : (l.take n)[k] = l[k] := by rw [List.getElem_take]
    rw [h1, ← List.getD_eq_getElem l 0 hkl]
    exact H k hkn

/-- Scanning a `drop` collects exactly the entries at indices from the cut on. -/
theorem forall_mem_drop_iff (l : List ℕ) (n : ℕ) (P : ℕ → Prop) :
    (∀ x ∈ l.drop n, P x) ↔ ∀ k, n ≤ k → k < l.length → P (l.getD k 0) := by
  constructor
  · intro H k hnk hkl
    have hlen : k - n < (l.drop n).length := by
      simp
      omega
    have hnk : n + (k - n) < l.length := by omega
    have h1 : (l.drop n)[k - n] = l[n + (k - n)] := by rw [List.getElem_drop]
    have h2 : n + (k - n) = k := by omega
    have hmem : l.getD k 0 ∈ l.drop n := by
      rw [List.getD_eq_getElem l 0 hkl]
      have : (l.drop n)[k - n] = l[k] := by
        rw [h1]
        congr 1
      exact this ▸ (l.drop n).getElem_mem hlen
    exact H _ hmem
  · intro H x hx
    obtain ⟨k, hk, rfl⟩ := List.mem_iff_getElem.mp hx
    have hkl : n + k < l.length := by
      simp at hk
      omega
    have h1 : (l.drop n)[k] = l[n + k] := by rw [List.getElem_drop]
    rw [h1, ← List.getD_eq_getElem l 0 hkl]
    exact H (n + k) (by omega) hkl

/-- The left scan is visible exactly when every cell left of `(i, j)` is
strictly lower. -/
theorem isVisibleFromSide_left (m : List (List ℕ)) (i j e : ℕ)
    (hj : j < (m.getD i []).length) :
    isVisibleFromSide e (getLeft i j m) = true ↔ ∀ k, k < j → height m i k < e := by
  unfold isVisibleFromSide getLeft
  simp only [List.all_eq_true, List.mem_reverse, decide_eq_true_eq]
  exact forall_mem_take_iff (m.getD i []) j (le_of_lt hj) (· < e)

/-- The right scan is visible exactly when every cell right of `(i, j)` is
strictly lower. -/
theorem isVisibleFromSide_right (m : List (List ℕ)) (i j e : ℕ) :
    isVisibleFromSide e (getRight i j m) = true ↔
      ∀ k, j < k → k < (m.getD i []).length → height m i k < e := by
  unfold isVisibleFromSide getRight
  simp only [List.all_eq_true, decide_eq_true_eq]
  rw [forall_mem_drop_iff (m.getD i []) (j + 1) (· < e)]
  constructor
  · intro H k h1 h2
    exact H k (by omega) h2
  · intro H k h1 h2
    exact H k (by omega) h2

/-- The upward scan is visible exactly when every cell above `(i, j)` is
strictly lower. -/
theorem isVisibleFromSide_top (m : List (List ℕ)) (i j e : ℕ) :
    isVisibleFromSide e (getTop i j m) = true ↔ ∀ k, k < i → height m k j < e := by
  unfold isVisibleFromSide getTop
  simp only [List.all_eq_true, List.mem_map, List.mem_reverse, List.mem_range,
    decide_eq_true_eq]
  constructor
  · intro H k hk
    exact H _ ⟨k, hk, rfl⟩
  · rintro H x ⟨k, hk, rfl⟩
    exact H k hk

/-- The downward scan is visible exactly when every cell below `(i, j)` is
strictly lower. -/
theorem isVisibleFromSide_bottom (m : List (List ℕ)) (i j e : ℕ) (hi : i < m.length) :
    isVisibleFromSide e (getBottom i j m) = true ↔
      ∀ k, i < k → k < m.length → height m k j < e := by
  unfold isVisibleFromSide getBottom
  simp only [List.all_eq_true, List.mem_map, List.mem_range'_1, decide_eq_true_eq]
  constructor
  · intro H k h1 h2
    exact H _ ⟨k, by omega, rfl⟩
  · rintro H x ⟨k, hk, rfl⟩
    exact H k (by omega) (by omega)

/-- C3: for every rectangular height matrix, a boundary cell is visible, and an
interior cell is visible exactly when, in at least one of the four directions,
every intervening cell is strictly lower; on the example grid the visible-cell
count is `21`. -/
theorem c3_visibility_rule (m : List (List ℕ)) (w i j : ℕ)
    (hrect : Rectangular m w) (hi : i < m.length) (hj : j < (m.getD i []).length) :
    (Boundary m i j → isVisible i j m = true) ∧
    (¬ Boundary m i j → (isVisible i j m = true ↔ VisibleScan m i j)) ∧
    countVisible sampleGrid = 21 := by
  refine ⟨fun hb => ?_, fun hb => ?_, by decide⟩
  · unfold Boundary at hb
    unfold isVisible
    rw [if_pos hb]
  · unfold Boundary at hb
    unfold isVisible
    rw [if_neg hb]
    simp only [Bool.or_eq_true]
    unfold VisibleScan
    rw [isVisibleFromSide_left m i j _ hj, isVisibleFromSide_right m i j _,
      isVisibleFromSide_top m i j _, isVisibleFromSide_bottom m i j _ hi]
    tauto

/-- Witness for C3 at the example grid's interior cell `(1, 1)` (height `5`,
visible from the left and the top). -/
theorem c3_visibility_rule_witness :
    isVisible 1 1 sampleGrid = true ↔ VisibleScan sampleGrid 1 1 :=
  ((c3_visibility_rule sampleGrid 5 1 1 (by unfold Rectangular; decide) (by decide)
    (by decide)).2.1 (by unfold Boundary; decide))

/-- With no blocker on the side, the viewing distance reaches the edge: every
scanned cell is counted and none is counted as a blocker. -/
theorem viewingDistance_no_blocker (e : ℕ) (side : List ℕ)
    (hall : ∀ c ∈ side, c < e) :
    getViewingDistanceFromSide e side = side.length := by
  induction side with
  | nil => rfl
  | cons c rest ih =>
    have hce : c < e := hall c (List.mem_cons_self c rest)
    unfold getViewingDistanceFromSide
    rw [if_neg (by omega)]
    rw [ih fun x hx => hall x (List.mem_cons_of_mem c hx)]
    simp [Nat.add_comm]

/-- With a blocker on the side, the viewing distance counts the strictly lower
cells scanned before the first blocker, plus the blocker itself. -/
theorem viewingDistance_blocker (e : ℕ) (side : List ℕ)
    (hblock : ∃ c ∈ side, e ≤ c) :
    getViewingDistanceFromSide e side =
      (side.takeWhile fun c => decide (c < e)).length + 1 := by
  induction side with
  | nil => simp at hblock
  | cons c rest ih =>
    unfold getViewingDistanceFromSide
    by_cases hce : e ≤ c
    · rw [if_pos hce]
      have : (List.takeWhile (fun c => decide (c < e)) (c :: rest)) = [] := by
        rw [List.takeWhile_cons]
        simp
        omega
      rw [this]
      rfl
    · rw [if_neg hce]
      have hrest : ∃ x ∈ rest, e ≤ x := by
        rcases hblock with ⟨x, hx, hxe⟩
        rcases List.mem_cons.mp hx with rfl | hx'
        · omega
        · exact ⟨x, hx', hxe⟩
      rw [ih hrest]
      have : (List.takeWhile (fun c => decide (c < e)) (c :: rest)) =
          c :: rest.takeWhile fun c => decide (c < e) := by
        rw [List.takeWhile_cons]
        simp
        omega
      rw [this]
      simp [Nat.add_comm]

/-- C4: the viewing distance counts cells outward up to and including the first
cell of equal or greater height, or up to the edge with no blocker counted; a
boundary cell's viewing distance toward its touched edge is `0`; the scenic
score is the product of the four directional distances; on the example grid the
maximum scenic score is `8`, achieved at row `3`, column `2`, a cell of height
`5`. -/
theorem c4_viewing_distance_rule (m : List (List ℕ)) (i j : ℕ)
    (hi : i < m.length) (hj : j < (m.getD i []).length) :
    ((∀ c ∈ getLeft i j m, c < height m i j) →
      getViewingDistanceFromSide (height m i j) (getLeft i j m) = (getLeft i j m).length) ∧
    ((∃ c ∈ getLeft i j m, height m i j ≤ c) →
      getViewingDistanceFromSide (height m i j) (getLeft i j m) =
        ((getLeft i j m).takeWhile fun c => decide (c < height m i j)).length + 1) ∧
    (j = 0 → getViewingDistanceFromSide (height m i j) (getLeft i j m) = 0) ∧
    (i = 0 → getViewingDistanceFromSide (height m i j) (getTop i j m) = 0) ∧
    (j = (m.getD i []).length - 1 →
      getViewingDistanceFromSide (height m i j) (getRight i j m) = 0) ∧
    (i = m.length - 1 →
      getViewingDistanceFromSide (height m i j) (getBottom i j m) = 0) ∧
    getScenicScore i j m =
      getViewingDistanceFromSide (height m i j) (getTop i j m) *
        getViewingDistanceFromSide (height m i j) (getLeft i j m) *
        getViewingDistanceFromSide (height m i j) (getRight i j m) *
        getViewingDistanceFromSide (height m i j) (getBottom i j m) ∧
    findMaxScenicScore sampleGrid = 8 ∧
    getScenicScore 3 2 sampleGrid = 8 ∧
    height sampleGrid 3 2 = 5 := by
  refine ⟨viewingDistance_no_blocker _ _, viewingDistance_blocker _ _,
    fun hj0 => ?_, fun hi0 => ?_, fun hjlast => ?_, fun hilast => ?_,
    rfl, by decide, by decide, by decide⟩
  · subst hj0
    rfl
  · subst hi0
    rfl
  · have : getRight i j m = [] := by
      unfold getRight
      rw [List.drop_eq_nil_iff]
      omega
    rw [this]
    rfl
  · have : getBottom i j m = [] := by
      unfold getBottom
      have : m.length - (i + 1) = 0 := by omega
      rw [this]
      rfl
    rw [this]
    rfl

/-- Witness for C4 at the example grid's best cell `(3, 2)`: the left scan has
no blocker, so its viewing distance reaches the edge. -/
theorem c4_viewing_distance_rule_witness :
    getViewingDistanceFromSide (height sampleGrid 3 2) (getLeft 3 2 sampleGrid) =
      (getLeft 3 2 sampleGrid).length :=
  (c4_viewing_distance_rule sampleGrid 3 2 (by decide) (by decide)).1 (by decide)

end Day08

namespace Day07

/-- A filesystem tree node, mirroring the `File` objects of the day-07
parser: a file with a size, or a directory; either kind's `children` map is
`none` until an `ls` output line first creates it (insertion order preserved,
keyed by name) — the `ls` handler adds a `children` map to whatever object the
cursor points at, a file included.  Parent links of the source are derived
from position in this tree. -/
inductive FsNode where
  | file (name : String) (size : ℕ) (children : Option (List FsNode))
  | dir (name : String) (children : Option (List FsNode))

/-- The name of a node. -/
def fsName : FsNode → String
  | FsNode.file n _ _ => n
  | FsNode.dir n _ => n

/-- The `children` property of a node (`none` is the JS absent property). -/
def childrenOf : FsNode → Option (List FsNode)
  | FsNode.file _ _ cs => cs
  | FsNode.dir _ cs => cs

/-- Overwrite the `children` property of a node. -/
def setChildren : FsNode → Option (List FsNode) → FsNode
  | FsNode.file nm s _, cs => FsNode.file nm s cs
  | FsNode.dir nm _, cs => FsNode.dir nm cs

mutual

/-- The memoized `node.size` of `findSmallDirs`: a file's own size, or the sum
of the children's sizes (`0` for a directory never listed). -/
def nodeSize : FsNode → ℕ
  | FsNode.file _ s _ => s
  | FsNode.dir _ none => 0
  | FsNode.dir _ (some cs) => childrenSize cs

/-- Sum of the sizes of a child list. -/
def childrenSize : List FsNode → ℕ
  | [] => 0
  | c :: rest => nodeSize c + childrenSize rest

end

mutual

/-- The directory sizes `findSmallDirs` visits, in visit order: depth-first,
children before the parent (each directory contributes its own total size
after all of its children's). -/
def dirSizesNode : FsNode → List ℕ
  | FsNode.file _ _ _ => []
  | FsNode.dir _ none => [0]
  | FsNode.dir _ (some cs) => dirSizesList cs ++ [childrenSize cs]

/-- Concatenated directory sizes of a child list, in child order. -/
def dirSizesList : List FsNode → List ℕ
  | [] => []
  | c :: rest => dirSizesNode c ++ dirSizesList rest

end

/-- `findSmallDirs` without the `big` flag: sizes of the directories with
total size at most the bound, in post-order visit order. -/
def findSmallDirSizes (bound : ℕ) (node : FsNode) : List ℕ :=
  (dirSizesNode node).filter fun s => decide (s ≤ bound)

/-- `findSmallDirs` with the `big` flag: sizes of the directories with total
size at least the bound. -/
def findBigDirSizes (bound : ℕ) (node : FsNode) : List ℕ :=
  (dirSizesNode node).filter fun s => decide (bound ≤ s)

/-- One output line of `ls`: `dir <name>` or `<size> <name>`. -/
inductive Entry where
  | dirEntry (name : String)
  | fileEntry (size : ℕ) (name : String)

/-- `parseFileNode` from the source. -/
def parseFileNode : Entry → FsNode
  | Entry.dirEntry n => FsNode.dir n none
  | Entry.fileEntry s n => FsNode.file n s none

/-- One shell command of the replayed session: `cd <arg>`, or `ls` together
with the output lines the parser slurps until the next command. -/
inductive ShellCmd where
  | cd (arg : String)
  | ls (entries : List Entry)

/-- The failure a replay can hit: the JS `TypeError` of reading a property of
`undefined`.  The source defines no error classes of its own. -/
inductive JsError where
  | typeError
deriving DecidableEq

/-- The parser state: the tree root and the cursor, as the path from the root
(`none` is the JS `undefined` cursor, reachable via `cd ..` at the root). -/
structure FsState where
  root : FsNode
  cwd : Option (List String)

/-- The node at a path. -/
def getNode : FsNode → List String → Option FsNode
  | n, [] => some n
  | n, k :: rest =>
    match ((childrenOf n).getD []).find? (fun c => fsName c = k) with
    | none => none
    | some c => getNode c rest

/-- Rewrite the node at a path (leaves the tree unchanged when the path does
not lead to a node). -/
def updateAt : FsNode → List String → (FsNode → FsNode) → FsNode
  | n, [], f => f n
  | n, k :: rest, f =>
    let l := (childrenOf n).getD []
    match l.findIdx? (fun c => fsName c = k) with
    | none => n
    | some idx =>
      setChildren n (some (l.set idx (updateAt (l.getD idx (FsNode.dir "" none)) rest f)))

/-- `Map#set` on the children list: replace the child of the same name in
place, else append. -/
def upsertChild (cs : List FsNode) (c : FsNode) : List FsNode :=
  if cs.any (fun old => fsName old = fsName c) then
    cs.map fun old => if fsName old = fsName c then c else old
  else cs ++ [c]

/-- One `ls` output line attached to the cursor's node: create the children
map if missing, then `state.cwd.children.set(node.name, node)` — this happens
per line, also on a file object. -/
def attachOne (n : FsNode) (e : Entry) : FsNode :=
  setChildren n (some (upsertChild ((childrenOf n).getD []) (parseFileNode e)))

/-- The whole `ls` slurp on one node, line by line: with zero output lines the
node (and its absent children map) is untouched. -/
def attachEntries (entries : List Entry) (n : FsNode) : FsNode :=
  entries.foldl attachOne n

/-- One step of `parseShellCommands`: the `cd` and `ls` cases of the switch.
`cd /` always resets the cursor; `cd ..` reads `.parent` of the cursor (a
`TypeError` when the cursor is `undefined`; `undefined` when the cursor is the
root, which has no parent); `cd <name>` reads `.children` of the cursor (a
`TypeError` when the cursor or its children map is `undefined`; an `undefined`
cursor when the named child was never listed); `ls` attaches its output lines
to the cursor's children map, dereferencing the cursor only once per output
line — an `ls` with zero output lines succeeds even at an `undefined`
cursor. -/
def runCmd (c : ShellCmd) (st : FsState) : Except JsError FsState :=
  match c with
  | ShellCmd.cd arg =>
    if arg = "/" then Except.ok ⟨st.root, some []⟩
    else if arg = ".." then
      match st.cwd with
      | none => Except.error JsError.typeError
      | some [] => Except.ok ⟨st.root, none⟩
      | some p => Except.ok ⟨st.root, some p.dropLast⟩
    else
      match st.cwd with
      | none => Except.error JsError.typeError
      | some p =>
        match getNode st.root p with
        | none => Except.error JsError.typeError
        | some node =>
          match childrenOf node with
          | none => Except.error JsError.typeError
          | some cs =>
            match cs.find? (fun child => fsName child = arg) with
            | none => Except.ok ⟨st.root, none⟩
            | some _ => Except.ok ⟨st.root, some (p ++ [arg])⟩
  | ShellCmd.ls entries =>
    match st.cwd with
    | none =>
      match entries with
      | [] => Except.ok st
      | _ :: _ => Except.error JsError.typeError
    | some p => Except.ok ⟨updateAt st.root p (attachEntries entries), st.cwd⟩

/-- `parseShellCommands` from the source: replay the whole session. -/
def runCmds : List ShellCmd → FsState → Except JsError FsState
  | [], st => Except.ok st
  | c :: rest, st =>
    match runCmd c st with
    | Except.error e => Except.error e
    | Except.ok st' => runCmds rest st'

/-- The initial state of `main`: a bare root directory as the cursor. -/
def fsInit : FsState :=
  ⟨FsNode.dir "/" none, some []⟩

/-- The canonical seven-directory sample session of the problem statement. -/
def sampleSession : List ShellCmd :=
  [ShellCmd.cd "/",
   ShellCmd.ls [Entry.dirEntry "a", Entry.fileEntry 14848514 "b.txt",
     Entry.fileEntry 8504156 "c.dat", Entry.dirEntry "d"],
   ShellCmd.cd "a",
   ShellCmd.ls [Entry.dirEntry "e", Entry.fileEntry 29116 "f",
     Entry.fileEntry 2557 "g", Entry.fileEntry 62596 "h.lst"],
   ShellCmd.cd "e",
   ShellCmd.ls [Entry.fileEntry 584 "i"],
   ShellCmd.cd "..",
   ShellCmd.cd "..",
   ShellCmd.cd "d",
   ShellCmd.ls [Entry.fileEntry 4060174 "j", Entry.fileEntry 8033020 "d.log",
     Entry.fileEntry 5626152 "d.ext", Entry.fileEntry 7214296 "k"]]

/-- The tree the sample session builds. -/
def sampleRoot : FsNode :=
  match runCmds sampleSession fsInit with
  | Except.ok st => st.root
  | Except.error _ => FsNode.dir "/" none

/-- C5: a directory's total size is the sum of its children's sizes, collected
children-before-parent (a directory's own size is visited after all the sizes
inside it); on the tree built by replaying the canonical sample session the
root's total size is `48381165`, the sum of the directory sizes at most
`100000` is `95437`, the part-two threshold `30000000 - (70000000 - root)` is
`8381165`, and the smallest directory of size at least `8381165` has size
`24933642`. -/
theorem c5_fs_aggregation :
    (∀ nm cs, nodeSize (FsNode.dir nm (some cs)) = childrenSize cs) ∧
    (∀ nm cs, dirSizesNode (FsNode.dir nm (some cs)) =
      dirSizesList cs ++ [childrenSize cs]) ∧
    nodeSize sampleRoot = 48381165 ∧
    (findSmallDirSizes 100000 sampleRoot).sum = 95437 ∧
    30000000 - (70000000 - nodeSize sampleRoot) = 8381165 ∧
    24933642 ∈ findBigDirSizes 8381165 sampleRoot ∧
    (findBigDirSizes 8381165 sampleRoot).all (fun s => decide (24933642 ≤ s)) = true := by
  refine ⟨fun nm cs => rfl, fun nm cs => rfl, by decide, by decide, by decide,
    by decide, by decide⟩

/-- C8 counterexample: replaying `cd ..` with the cursor at the root does not
fail at that point — it completes with the cursor `undefined` (no
`StructuralError` is raised; none exists in the source). -/
theorem c8_cd_up_at_root_counterexample :
    runCmds [ShellCmd.cd ".."] fsInit = Except.ok ⟨FsNode.dir "/" none, none⟩ := rfl

/-- C8 (amended): `cd ..` while the cursor is at the root succeeds and sets
the cursor to `undefined` (the root has no parent); the replay continues — a
later `cd /` restores the cursor to the root, and even an `ls` with zero
output lines succeeds (the cursor is dereferenced only per output line), while
a later `ls` with at least one output line or a second `cd ..` dereferences
the `undefined` cursor and fails with a `TypeError`, not a
`StructuralError`. -/
theorem c8_cd_up_at_root (st : FsState) (hroot : st.cwd = some []) :
    runCmd (ShellCmd.cd "..") st = Except.ok ⟨st.root, none⟩ ∧
    runCmd (ShellCmd.ls []) ⟨st.root, none⟩ = Except.ok ⟨st.root, none⟩ ∧
    (∀ e entries, runCmd (ShellCmd.ls (e :: entries)) ⟨st.root, none⟩ =
      Except.error JsError.typeError) ∧
    runCmd (ShellCmd.cd "/") ⟨st.root, none⟩ = Except.ok ⟨st.root, some []⟩ ∧
    runCmd (ShellCmd.cd "..") ⟨st.root, none⟩ = Except.error JsError.typeError := by
  refine ⟨?_, rfl, fun e entries => rfl, rfl, rfl⟩
  simp [runCmd, hroot]

/-- Witness for C8 at the initial state of `main`. -/
theorem c8_cd_up_at_root_witness :
    runCmd (ShellCmd.cd "..") fsInit = Except.ok ⟨fsInit.root, none⟩ :=
  (c8_cd_up_at_root fsInit rfl).1

end Day07

namespace Day05

/-- A parsed `move <n> from <i> to <j>` line (`parseInstruction` in the
source); the stack indices are 1-based. -/
structure Instruction where
  numToMove : ℕ
  fromIdx : ℕ
  toIdx : ℕ
deriving DecidableEq, Repr

/-- The loop `2a` of `performInstruction`: pop `k` labels off a stack
(bottom-first list, top at the end, as the JS array) into the temporary
stack, first-popped first.  `Array#pop` on an empty array yields `undefined`,
hence the `Option`. -/
def popN : ℕ → List Char → List (Option Char) × List Char
  | 0, d => ([], d)
  | k + 1, d =>
    let pr := popN k d.dropLast
    (d.getLast? :: pr.1, pr.2)

/-- The loop `2b` of `performInstruction`, processing the temporary stack from
its top (the reversed list head-first): while the peeked label is truthy, pop
it and push it onto the destination.  `undefined` (`none`) is falsy and stops
the loop; every stored crate label is a truthy one-character string. -/
def transferRev : List (Option Char) → List Char → List Char
  | some c :: rest, dest => transferRev rest (dest ++ [c])
  | _, dest => dest

/-- The `while (tempStack.peek())` loop: the temporary stack is consumed from
its end. -/
def transfer (temp : List (Option Char)) (dest : List Char) : List Char :=
  transferRev temp.reverse dest

/-- `performInstruction` from the source (bulk-transfer mode): pop
`numToMove` labels off the `from` stack into a temporary stack, then push them
onto the `to` stack in reverse-of-pop order. -/
def performInstruction (ins : Instruction) (stks : List (List Char)) :
    List (List Char) :=
  let pr := popN ins.numToMove (stks.getD (ins.fromIdx - 1) [])
  let stks1 := stks.set (ins.fromIdx - 1) pr.2
  stks1.set (ins.toIdx - 1) (transfer pr.1 (stks1.getD (ins.toIdx - 1) []))

/-- `performInstructions` from the source. -/
def performInstructions (instrs : List Instruction) (stks : List (List Char)) :
    List (List Char) :=
  instrs.foldl (fun s ins => performInstruction ins s) stks

/-- The final answer of `main`: the top label of every stack concatenated
(`Array#join` renders an `undefined` peek of an empty stack as nothing). -/
def topsString (stks : List (List Char)) : String :=
  String.mk (stks.filterMap fun s => s.getLast?)

/-- The sample stacks `[Z,N]`, `[M,C,D]`, `[P]`, bottom to top. -/
def sampleStacks : List (List Char) :=
  [['Z', 'N'], ['M', 'C', 'D'], ['P']]

/-- The sample instruction list of the problem statement. -/
def sampleInstructions : List Instruction :=
  [⟨1, 2, 1⟩, ⟨3, 1, 3⟩, ⟨2, 2, 1⟩, ⟨1, 1, 2⟩]

end Day05

namespace Day05

/-- What the popping loop produces: the top `k` labels of the stack in
pop order (topmost first), padded with `undefined` once the stack is empty,
together with the remaining stack. -/
theorem popN_eq (k : ℕ) : ∀ d : List Char,
    popN k d =
      ((d.drop (d.length - k)).reverse.map some ++ List.replicate (k - d.length) none,
       d.take (d.length - k)) := by
  induction k with
  | zero =>
    intro d
    simp [popN]
  | succ k ih =>
    intro d
    rcases List.eq_nil_or_concat d with rfl | ⟨ys, y, rfl⟩
    · simp only [popN, List.dropLast_nil, List.getLast?_nil, ih]
      simp [List.replicate_succ]
    · simp only [List.concat_eq_append]
      simp only [popN, List.getLast?_concat, List.dropLast_concat, ih]
      have hle : ys.length - k ≤ ys.length := Nat.sub_le _ _
      simp only [List.length_append, List.length_singleton, Nat.succ_sub_succ]
      rw [List.drop_append_of_le_length hle, List.take_append_of_le_length hle]
      simp [List.reverse_append]

/-- Transferring a fully-truthy temporary stack empties it onto the
destination. -/
theorem transferRev_somes (xs dest : List Char) :
    transferRev (xs.map some) dest = dest ++ xs := by
  induction xs generalizing dest with
  | nil => simp [transferRev]
  | cons c rest ih =>
    simp only [List.map_cons, transferRev]
    rw [ih]
    simp

/-- Transferring the staged block (popped top-first) appends it to the
destination in its original bottom-to-top order. -/
theorem transfer_block (xs dest : List Char) :
    transfer (xs.reverse.map some) dest = dest ++ xs := by
  unfold transfer
  rw [← List.map_reverse, List.reverse_reverse]
  exact transferRev_somes xs dest

/-- A temporary stack whose deepest element is `undefined` transfers
nothing: the `while` peek is falsy at once. -/
theorem transfer_trailing_none (l : List (Option Char)) (dest : List Char) :
    transfer (l ++ [none]) dest = dest := by
  unfold transfer
  rw [List.reverse_append]
  simp [transferRev]

/-- `getD` after `set` at the same (in-range) index. -/
theorem getD_set_self (l : List (List Char)) (i : ℕ) (x : List Char)
    (h : i < l.length) : (l.set i x).getD i [] = x := by
  rw [List.getD_eq_getElem _ _ (by simpa using h)]
  exact List.getElem_set_self _

/-- `getD` after `set` at a different (in-range) index. -/
theorem getD_set_ne (l : List (List Char)) (i j : ℕ) (x : List Char)
    (hj : j < l.length) (hij : i ≠ j) : (l.set i x).getD j [] = l.getD j [] := by
  rw [List.getD_eq_getElem _ _ (by simpa using hj), List.getD_eq_getElem _ _ hj]
  exact List.getElem_set_ne hij _

/-- Writing back the value already at an index is a no-op. -/
theorem set_getD_self (l : List (List Char)) (i : ℕ) (h : i < l.length) :
    l.set i (l.getD i []) = l := by
  induction l generalizing i with
  | nil => simp at h
  | cons a t ih =>
    cases i with
    | zero => rfl
    | succ n =>
      have h' : n < t.length := by simpa using h
      simp only [List.getD_cons_succ, List.set_cons_succ]
      rw [ih n h']

end Day05

namespace Day05

/-- `sum` after `set`: the removed entry and the new entry trade places. -/
theorem sum_set_add {M : Type} [AddCommMonoid M] (L : List M) (i : ℕ) (x : M)
    (h : i < L.length) : (L.set i x).sum + L[i] = L.sum + x := by
  induction L generalizing i with
  | nil => simp at h
  | cons a t ih =>
    cases i with
    | zero =>
      simp only [List.set_cons_zero, List.sum_cons, List.getElem_cons_zero]
      abel
    | succ n =>
      have h' : n < t.length := by simpa using h
      simp only [List.set_cons_succ, List.sum_cons, List.getElem_cons_succ]
      rw [add_assoc, ih n h', ← add_assoc]

/-- Writing two entries whose contents are a redistribution of the old ones
(an amount `m` moves from slot `f` to slot `t`) preserves the sum. -/
theorem sum_set_set {M : Type} [AddCancelCommMonoid M] (L : List M) (f t : ℕ)
    (hf : f < L.length) (ht : t < L.length) (hne : f ≠ t) (x y m : M)
    (hx : L[f] = x + m) (hy : y = L[t] + m) :
    ((L.set f x).set t y).sum = L.sum := by
  have ht' : t < (L.set f x).length := by simpa using ht
  have hA : ((L.set f x).set t y).sum + L[t] = (L.set f x).sum + y := by
    have h1 := sum_set_add (L.set f x) t y ht'
    rwa [List.getElem_set_ne hne _] at h1
  have hB : (L.set f x).sum + L[f] = L.sum + x := sum_set_add L f x hf
  have hcomb : ((L.set f x).set t y).sum + L[t] + L[f] = L.sum + x + y := by
    calc ((L.set f x).set t y).sum + L[t] + L[f]
        = ((L.set f x).sum + y) + L[f] := by rw [hA]
      _ = ((L.set f x).sum + L[f]) + y := by abel
      _ = (L.sum + x) + y := by rw [hB]
  rw [hy]
  rw [hx, hy] at hcomb
  have hfinal : ((L.set f x).set t (L[t] + m)).sum + (L[t] + (x + m)) =
      L.sum + (L[t] + (x + m)) := by
    calc ((L.set f x).set t (L[t] + m)).sum + (L[t] + (x + m))
        = ((L.set f x).set t (L[t] + m)).sum + L[t] + (x + m) := by rw [add_assoc]
      _ = L.sum + x + (L[t] + m) := hcomb
      _ = L.sum + (L[t] + (x + m)) := by abel
  exact add_right_cancel hfinal

/-- The observable effect of one in-range bulk move with distinct source and
destination: the source loses its top `numToMove` labels, the destination
gains that block with its internal order preserved, end to end. -/
theorem performInstruction_spec (stks : List (List Char)) (ins : Instruction)
    (hf1 : 1 ≤ ins.fromIdx) (hf2 : ins.fromIdx ≤ stks.length)
    (ht1 : 1 ≤ ins.toIdx) (ht2 : ins.toIdx ≤ stks.length)
    (hne : ins.fromIdx ≠ ins.toIdx)
    (hcnt : ins.numToMove ≤ (stks.getD (ins.fromIdx - 1) []).length) :
    performInstruction ins stks =
      (stks.set (ins.fromIdx - 1)
        ((stks.getD (ins.fromIdx - 1) []).take
          ((stks.getD (ins.fromIdx - 1) []).length - ins.numToMove))).set
        (ins.toIdx - 1)
        (stks.getD (ins.toIdx - 1) [] ++
          (stks.getD (ins.fromIdx - 1) []).drop
            ((stks.getD (ins.fromIdx - 1) []).length - ins.numToMove)) := by
  have hne' : ins.fromIdx - 1 ≠ ins.toIdx - 1 := by omega
  unfold performInstruction
  rw [popN_eq]
  have hrep : ins.numToMove - (stks.getD (ins.fromIdx - 1) []).length = 0 := by omega
  rw [hrep]
  simp only [List.replicate_zero, List.append_nil]
  rw [getD_set_ne stks (ins.fromIdx - 1) (ins.toIdx - 1) _ (by omega) hne']
  rw [transfer_block]

/-- A bulk move whose source and destination coincide restores the stack it
drained: the staged block is pushed back in its original order. -/
theorem performInstruction_self (stks : List (List Char)) (ins : Instruction)
    (ht1 : 1 ≤ ins.toIdx) (ht2 : ins.toIdx ≤ stks.length)
    (heq : ins.fromIdx = ins.toIdx)
    (hcnt : ins.numToMove ≤ (stks.getD (ins.fromIdx - 1) []).length) :
    performInstruction ins stks = stks := by
  unfold performInstruction
  rw [popN_eq]
  have hrep : ins.numToMove - (stks.getD (ins.fromIdx - 1) []).length = 0 := by omega
  rw [hrep]
  simp only [List.replicate_zero, List.append_nil]
  rw [heq]
  rw [getD_set_self stks (ins.toIdx - 1) _ (by omega)]
  rw [transfer_block, List.take_append_drop]
  rw [List.set_set]
  exact set_getD_self stks (ins.toIdx - 1) (by omega)

end Day05

namespace Day05

/-- C6: in bulk-transfer mode, an in-range move of `numToMove` labels removes
the top block from the source stack and appends it to the destination stack
with its relative order preserved end to end; on the sample stacks and
instruction list the final stack tops concatenate to `MCD`. -/
theorem c6_bulk_transfer (stks : List (List Char)) (ins : Instruction)
    (hf1 : 1 ≤ ins.fromIdx) (hf2 : ins.fromIdx ≤ stks.length)
    (ht1 : 1 ≤ ins.toIdx) (ht2 : ins.toIdx ≤ stks.length)
    (hne : ins.fromIdx ≠ ins.toIdx)
    (hcnt : ins.numToMove ≤ (stks.getD (ins.fromIdx - 1) []).length) :
    performInstruction ins stks =
      (stks.set (ins.fromIdx - 1)
        ((stks.getD (ins.fromIdx - 1) []).take
          ((stks.getD (ins.fromIdx - 1) []).length - ins.numToMove))).set
        (ins.toIdx - 1)
        (stks.getD (ins.toIdx - 1) [] ++
          (stks.getD (ins.fromIdx - 1) []).drop
            ((stks.getD (ins.fromIdx - 1) []).length - ins.numToMove)) ∧
    topsString (performInstructions sampleInstructions sampleStacks) = "MCD" :=
  ⟨performInstruction_spec stks ins hf1 hf2 ht1 ht2 hne hcnt, rfl⟩

/-- Witness for C6: moving one label from `[A, B]` onto an empty stack moves
the top `B` across. -/
theorem c6_bulk_transfer_witness :
    performInstruction ⟨1, 1, 2⟩ [['A', 'B'], []] = [['A'], ['B']] := by
  have h := (c6_bulk_transfer [['A', 'B'], []] ⟨1, 1, 2⟩ (by decide) (by decide)
    (by decide) (by decide) (by decide) (by decide)).1
  rw [h]
  rfl

/-- C7 counterexample: the instruction `move 2 from 1 to 2` on stacks
`[[Z], [P]]` asks for more labels than the source holds, yet no error is
raised: the run completes, the source is drained, nothing reaches the
destination, and the program still produces a final answer. -/
theorem c7_underflow_counterexample :
    performInstruction ⟨2, 1, 2⟩ [['Z'], ['P']] = [[], ['P']] ∧
    topsString (performInstructions [⟨2, 1, 2⟩] [['Z'], ['P']]) = "P" :=
  ⟨rfl, rfl⟩

/-- C7 (amended): a move whose count exceeds the source stack's depth does not
raise any error — the excess pops return `undefined`, which ends up at the
bottom of the temporary stack, so the falsy peek transfers nothing: the source
stack is left empty, every other stack (the destination included) is
unchanged, and the run completes. -/
theorem c7_underflow_drains (stks : List (List Char)) (ins : Instruction)
    (hf1 : 1 ≤ ins.fromIdx) (hf2 : ins.fromIdx ≤ stks.length)
    (ht1 : 1 ≤ ins.toIdx) (ht2 : ins.toIdx ≤ stks.length)
    (hcnt : (stks.getD (ins.fromIdx - 1) []).length < ins.numToMove) :
    performInstruction ins stks = stks.set (ins.fromIdx - 1) [] := by
  unfold performInstruction
  rw [popN_eq]
  have h0 : (stks.getD (ins.fromIdx - 1) []).length - ins.numToMove = 0 := by omega
  obtain ⟨m, hm⟩ : ∃ m, ins.numToMove - (stks.getD (ins.fromIdx - 1) []).length
      = m + 1 := ⟨ins.numToMove - (stks.getD (ins.fromIdx - 1) []).length - 1, by omega⟩
  simp only [h0, hm, List.replicate_succ', ← List.append_assoc, List.take_zero,
    List.drop_zero]
  rw [transfer_trailing_none]
  exact set_getD_self (stks.set (ins.fromIdx - 1) []) (ins.toIdx - 1)
    (by simp only [List.length_set]; omega)

/-- Witness for C7 on a concrete underflowing move. -/
theorem c7_underflow_drains_witness :
    performInstruction ⟨3, 1, 2⟩ [['Z'], ['P']] = [[], ['P']] := by
  have h := c7_underflow_drains [['Z'], ['P']] ⟨3, 1, 2⟩ (by decide) (by decide)
    (by decide) (by decide) (by decide)
  rw [h]
  rfl

/-- C10: an in-range move preserves the multiset of crate labels across all
stacks (hence the total crate count) and leaves every stack other than the
source and the destination unchanged. -/
theorem c10_move_conservation (stks : List (List Char)) (ins : Instruction)
    (hf1 : 1 ≤ ins.fromIdx) (hf2 : ins.fromIdx ≤ stks.length)
    (ht1 : 1 ≤ ins.toIdx) (ht2 : ins.toIdx ≤ stks.length)
    (hcnt : ins.numToMove ≤ (stks.getD (ins.fromIdx - 1) []).length) :
    ((performInstruction ins stks).map (fun s => Multiset.ofList s)).sum =
      (stks.map (fun s => Multiset.ofList s)).sum ∧
    ((performInstruction ins stks).map List.length).sum =
      (stks.map List.length).sum ∧
    ∀ k, k < stks.length → k ≠ ins.fromIdx - 1 → k ≠ ins.toIdx - 1 →
      (performInstruction ins stks).getD k [] = stks.getD k [] := by
  by_cases heq : ins.fromIdx = ins.toIdx
  · rw [performInstruction_self stks ins ht1 ht2 heq hcnt]
    exact ⟨rfl, rfl, fun k _ _ _ => rfl⟩
  · have hspec := performInstruction_spec stks ins hf1 hf2 ht1 ht2 heq hcnt
    rw [hspec]
    have hf : ins.fromIdx - 1 < stks.length := by omega
    have ht : ins.toIdx - 1 < stks.length := by omega
    have hne' : ins.fromIdx - 1 ≠ ins.toIdx - 1 := by omega
    have hsrc : stks.getD (ins.fromIdx - 1) [] = stks[ins.fromIdx - 1] :=
      List.getD_eq_getElem _ _ hf
    have hdst : stks.getD (ins.toIdx - 1) [] = stks[ins.toIdx - 1] :=
      List.getD_eq_getElem _ _ ht
    refine ⟨?_, ?_, ?_⟩
    · rw [List.map_set, List.map_set]
      refine sum_set_set (stks.map (fun s => Multiset.ofList s))
        (ins.fromIdx - 1) (ins.toIdx - 1) (by simpa using hf) (by simpa using ht)
        hne' _ _ (Multiset.ofList ((stks.getD (ins.fromIdx - 1) []).drop
          ((stks.getD (ins.fromIdx - 1) []).length - ins.numToMove)))
        ?_ ?_
      · rw [List.getElem_map]
        rw [← hsrc]
        conv_lhs => rw [← List.take_append_drop
          ((stks.getD (ins.fromIdx - 1) []).length - ins.numToMove)
          (stks.getD (ins.fromIdx - 1) [])]
        rfl
      · rw [List.getElem_map]
        rw [← hdst]
        rfl
    · rw [List.map_set, List.map_set]
      refine sum_set_set (stks.map List.length)
        (ins.fromIdx - 1) (ins.toIdx - 1) (by simpa using hf) (by simpa using ht)
        hne' _ _ ((stks.getD (ins.fromIdx - 1) []).drop
          ((stks.getD (ins.fromIdx - 1) []).length - ins.numToMove)).length
        ?_ ?_
      · rw [List.getElem_map]
        rw [← hsrc]
        conv_lhs => rw [← List.take_append_drop
          ((stks.getD (ins.fromIdx - 1) []).length - ins.numToMove)
          (stks.getD (ins.fromIdx - 1) [])]
        rw [List.length_append]
      · rw [List.getElem_map]
        rw [← hdst]
        rw [List.length_append]
    · intro k hk hkf hkt
      rw [getD_set_ne _ _ _ _ (by simpa using hk) (fun hcon => hkt hcon.symm)]
      rw [getD_set_ne _ _ _ _ hk (fun hcon => hkf hcon.symm)]

/-- Witness for C10: the sample's first move preserves the label multiset. -/
theorem c10_move_conservation_witness :
    ((performInstruction ⟨1, 2, 1⟩ sampleStacks).map
      (fun s => Multiset.ofList s)).sum =
      (sampleStacks.map (fun s => Multiset.ofList s)).sum :=
  (c10_move_conservation sampleStacks ⟨1, 2, 1⟩ (by decide) (by decide) (by decide)
    (by decide) (by decide)).1

end Day05
